import Mathlib

/-!
Verification of the Merkle commitment engine of `sp1-goldinals`.

The repository's own code (`src/program/src/main.rs`, `src/script/src/bin/main.rs`)
is a thin driver around the `rs_merkle` library: it reads a root, a leaf, an
encoded proof, a leaf index and a total leaf count, decodes the proof, verifies
the inclusion claim and commits `root ++ leaf ++ validityByte`.  The Merkle
algorithms themselves (tree construction, proof generation, the proof codec and
the verifier) are not part of the repository's sources, so they are modelled
from the specification (spec.md, sections 4.1 to 4.5): digests are byte strings,
internal nodes are `hash(left ++ right)`, odd layer entries are carried forward
unchanged, the sibling path stores one digest per pairing transition, and the
codec concatenates 32-byte digests.

All recursive functions use an explicit fuel argument equal to the layer length
(which strictly exceeds the number of halving steps needed), so that every
definition is structurally recursive and evaluates by `decide` / `rfl`.
-/

/-- A digest is a byte string; the implementation uses 32-byte SHA-256 outputs,
but the algebra only needs the combining function, so bytes are `Nat`s here. -/
abbrev Digest := List Nat

/-- Error taxonomy of spec.md section 7. -/
inductive MerkleError where
  | EmptyTree
  | IndexOutOfRange
  | MalformedProof
deriving DecidableEq

/-- Modelled from the spec (4.2): pair adjacent entries left-to-right, the
parent of a pair is `hash(left ++ right)`; an odd final entry is carried
forward unchanged (not duplicated, not hashed with itself). -/
def pairUp (H : List Nat → List Nat) : List Digest → List Digest
  | [] => []
  | [a] => [a]
  | a :: b :: rest => H (a ++ b) :: pairUp H rest

/-- Modelled from the spec (4.2): repeatedly pair the current layer until it
has a single entry, collecting the layers.  `fuel` bounds the number of
halving steps; any `fuel ≥ layer.length` is enough. -/
def buildFuel (H : List Nat → List Nat) : Nat → List Digest → List (List Digest)
  | 0, layer => [layer]
  | f + 1, layer =>
    if layer.length ≤ 1 then [layer] else layer :: buildFuel H f (pairUp H layer)

/-- Modelled from the spec (4.2): `build(leaves) -> Tree`, the ordered list of
layers from the leaf layer up to the single-entry root layer. -/
def build (H : List Nat → List Nat) (leaves : List Digest) : List (List Digest) :=
  buildFuel H leaves.length leaves

/-- Modelled from the spec (4.2): `root()` is the entry of the final
single-entry layer; it fails (here: `none`) when the tree was built from zero
leaves. -/
def treeRoot (tree : List (List Digest)) : Option Digest :=
  tree.getLast?.bind List.head?

/-- The root digest computed directly by repeated pairing (used to relate
`treeRoot` of a built tree to the layer recursion). -/
def rootFuel (H : List Nat → List Nat) : Nat → List Digest → Digest
  | 0, layer => layer.headD []
  | f + 1, layer =>
    if layer.length ≤ 1 then layer.headD [] else rootFuel H f (pairUp H layer)

/-- Modelled from the spec (4.3): walk the layers from the leaves to the layer
below the root; at each transition append the pairing partner of the current
position, or nothing when the position is the odd carried-forward entry, then
halve the position. -/
def pathFromLayers : List (List Digest) → Nat → List Digest
  | [], _ => []
  | _ :: [], _ => []
  | l :: next :: rest, idx =>
    (if idx % 2 = 0 then
      (if idx + 1 < l.length then [l.getD (idx + 1) []] else [])
    else [l.getD (idx - 1) []]) ++ pathFromLayers (next :: rest) (idx / 2)

/-- Modelled from the spec (4.3): `generate(tree, index) -> SiblingPath`, which
fails with `IndexOutOfRangeError` when the index is not a leaf position. -/
def generate (tree : List (List Digest)) (idx : Nat) :
    Except MerkleError (List Digest) :=
  if idx < (tree.headD []).length then Except.ok (pathFromLayers tree idx)
  else Except.error MerkleError.IndexOutOfRange

/-- Modelled from the spec (4.5): recompute the candidate root from the leaf.
At each level, the odd carried node (`levelSize` odd and `pos` last) passes
through unchanged consuming no sibling; otherwise one sibling is consumed and
combined on the side given by the parity of `pos`.  `none` signals a path whose
length makes completion impossible (`MalformedProofError`).  Any
`fuel ≥ levelSize` is enough. -/
def verifyRootFuel (H : List Nat → List Nat) :
    Nat → Digest → Nat → Nat → List Digest → Option Digest
  | 0, current, _, _, path => if path = [] then some current else none
  | f + 1, current, pos, levelSize, path =>
    if levelSize ≤ 1 then (if path = [] then some current else none)
    else if levelSize % 2 = 1 ∧ pos = levelSize - 1 then
      verifyRootFuel H f current (pos / 2) ((levelSize + 1) / 2) path
    else
      match path with
      | [] => none
      | s :: rest =>
        verifyRootFuel H f
          (if pos % 2 = 0 then H (current ++ s) else H (s ++ current))
          (pos / 2) ((levelSize + 1) / 2) rest

/-- Modelled from the spec (4.5, 7): `verify` fails with `IndexOutOfRangeError`
when `index ≥ totalLeaves` or `totalLeaves = 0`, fails with
`MalformedProofError` when the path length is structurally incompatible with
the tree depth, and otherwise returns the boolean comparison of the recomputed
root with the published root. -/
def verify (H : List Nat → List Nat) (root leaf : Digest)
    (index totalLeaves : Nat) (path : List Digest) : Except MerkleError Bool :=
  if totalLeaves = 0 ∨ totalLeaves ≤ index then
    Except.error MerkleError.IndexOutOfRange
  else
    match verifyRootFuel H totalLeaves leaf index totalLeaves path with
    | none => Except.error MerkleError.MalformedProof
    | some r => Except.ok (decide (r = root))

/-- Modelled from the spec (4.4): `encode` concatenates the digests of the
path in order, with no separators and no length prefix. -/
def encodePath : List Digest → List Nat
  | [] => []
  | d :: rest => d ++ encodePath rest

/-- Split a byte string into consecutive 32-byte chunks; `fuel ≥ bs.length`
makes the recursion total. -/
def chunksFuel : Nat → List Nat → List (List Nat)
  | _, [] => []
  | 0, _ => []
  | f + 1, bs => bs.take 32 :: chunksFuel f (bs.drop 32)

/-- The 32-byte chunks of a byte string. -/
def chunks32 (bs : List Nat) : List (List Nat) :=
  chunksFuel bs.length bs

/-- Modelled from the spec (4.4): `decode` fails with `MalformedProofError`
when the byte length is not a multiple of 32, and otherwise splits the bytes
into 32-byte digests. -/
def decodePath (bs : List Nat) : Except MerkleError (List Digest) :=
  if bs.length % 32 = 0 then Except.ok (chunks32 bs)
  else Except.error MerkleError.MalformedProof

/-- The driver of `src/program/src/main.rs`: decode the proof bytes, verify
the inclusion claim, and commit `root ++ leaf ++ validityByte`; an error in
either step aborts the computation and nothing is committed. -/
def driver (H : List Nat → List Nat) (root leaf proofBytes : List Nat)
    (index totalLeaves : Nat) : Except MerkleError (List Nat) :=
  match decodePath proofBytes with
  | Except.error e => Except.error e
  | Except.ok path =>
    match verify H root leaf index totalLeaves path with
    | Except.error e => Except.error e
    | Except.ok v => Except.ok (root ++ leaf ++ [cond v 1 0])

/-- The number of siblings a path must supply so that the level recursion of
`verifyRootFuel` can run to completion: one per level except at odd-carry
transitions. -/
def expectedPathLen : Nat → Nat → Nat → Nat
  | 0, _, _ => 0
  | f + 1, pos, levelSize =>
    if levelSize ≤ 1 then 0
    else (if levelSize % 2 = 1 ∧ pos = levelSize - 1 then 0 else 1) +
      expectedPathLen f (pos / 2) ((levelSize + 1) / 2)

/-- A concrete stand-in hash used only to instantiate witnesses: injective
enough on the tiny inputs involved, and fast under kernel reduction. -/
def Hc (bs : List Nat) : List Nat :=
  [bs.foldl (fun a b => 5 * a + b + 1) 3]

theorem pairUp_length (H : List Nat → List Nat) :
    ∀ l : List Digest, (pairUp H l).length = (l.length + 1) / 2
  | [] => by simp [pairUp]
  | [_] => by simp [pairUp]
  | _ :: _ :: rest => by
    simp only [pairUp, List.length_cons, pairUp_length H rest]
    omega

theorem pairUp_ne_nil (H : List Nat → List Nat) (l : List Digest) (h : l ≠ []) :
    pairUp H l ≠ [] := by
  match l with
  | [] => exact absurd rfl h
  | [_] => simp [pairUp]
  | _ :: _ :: _ => simp [pairUp]

theorem pairUp_getD_pair (H : List Nat → List Nat) :
    ∀ (l : List Digest) (i : Nat), 2 * i + 1 < l.length →
      (pairUp H l).getD i [] = H (l.getD (2 * i) [] ++ l.getD (2 * i + 1) [])
  | [], _, h => by simp only [List.length_nil] at h; omega
  | [_], _, h => by simp only [List.length_singleton] at h; omega
  | _ :: _ :: _, 0, _ => rfl
  | a :: b :: rest, i + 1, h => by
    have h' : 2 * i + 1 < rest.length := by
      simp only [List.length_cons] at h; omega
    have e2 : 2 * (i + 1) = 2 * i + 1 + 1 := by omega
    have e3 : 2 * (i + 1) + 1 = 2 * i + 1 + 1 + 1 := by omega
    simp only [pairUp, e2, e3, List.getD_cons_succ]
    exact pairUp_getD_pair H rest i h'

theorem pairUp_getD_carry (H : List Nat → List Nat) :
    ∀ (l : List Digest) (i : Nat), l.length = 2 * i + 1 →
      (pairUp H l).getD i [] = l.getD (2 * i) []
  | [], _, h => by simp only [List.length_nil] at h; omega
  | [_], 0, _ => rfl
  | [_], _ + 1, h => by simp only [List.length_singleton] at h; omega
  | _ :: _ :: _, 0, h => by simp only [List.length_cons] at h; omega
  | a :: b :: rest, i + 1, h => by
    have h' : rest.length = 2 * i + 1 := by
      simp only [List.length_cons] at h; omega
    have e2 : 2 * (i + 1) = 2 * i + 1 + 1 := by omega
    simp only [pairUp, e2, List.getD_cons_succ]
    exact pairUp_getD_carry H rest i h'

theorem buildFuel_ne_nil (H : List Nat → List Nat) (f : Nat) (layer : List Digest) :
    buildFuel H f layer ≠ [] := by
  match f with
  | 0 => simp [buildFuel]
  | _ + 1 =>
    simp only [buildFuel]
    split <;> simp

theorem buildFuel_cons (H : List Nat → List Nat) (f : Nat) (layer : List Digest)
    (h1 : ¬ layer.length ≤ 1) :
    buildFuel H (f + 1) layer = layer :: buildFuel H f (pairUp H layer) := by
  simp only [buildFuel, if_neg h1]

theorem rootFuel_step (H : List Nat → List Nat) (f : Nat) (layer : List Digest)
    (h1 : ¬ layer.length ≤ 1) :
    rootFuel H (f + 1) layer = rootFuel H f (pairUp H layer) := by
  simp only [rootFuel, if_neg h1]

theorem verifyRootFuel_carry (H : List Nat → List Nat) (f : Nat) (cur : Digest)
    (pos ls : Nat) (path : List Digest) (h1 : ¬ ls ≤ 1)
    (hc : ls % 2 = 1 ∧ pos = ls - 1) :
    verifyRootFuel H (f + 1) cur pos ls path =
      verifyRootFuel H f cur (pos / 2) ((ls + 1) / 2) path := by
  simp only [verifyRootFuel, if_neg h1, if_pos hc]

theorem verifyRootFuel_cons (H : List Nat → List Nat) (f : Nat) (cur : Digest)
    (pos ls : Nat) (s : Digest) (rest : List Digest) (h1 : ¬ ls ≤ 1)
    (hc : ¬ (ls % 2 = 1 ∧ pos = ls - 1)) :
    verifyRootFuel H (f + 1) cur pos ls (s :: rest) =
      verifyRootFuel H f (if pos % 2 = 0 then H (cur ++ s) else H (s ++ cur))
        (pos / 2) ((ls + 1) / 2) rest := by
  simp only [verifyRootFuel, if_neg h1, if_neg hc]

theorem verifyRootFuel_nil_of_short (H : List Nat → List Nat) (f : Nat)
    (cur : Digest) (pos ls : Nat) (h1 : ¬ ls ≤ 1)
    (hc : ¬ (ls % 2 = 1 ∧ pos = ls - 1)) :
    verifyRootFuel H (f + 1) cur pos ls [] = none := by
  simp only [verifyRootFuel, if_neg h1, if_neg hc]

theorem treeRoot_buildFuel (H : List Nat → List Nat) :
    ∀ (f : Nat) (l : List Digest), l ≠ [] →
      treeRoot (buildFuel H f l) = some (rootFuel H f l)
  | 0, l, hl => by
    cases l with
    | nil => exact absurd rfl hl
    | cons a t => rfl
  | f + 1, l, hl => by
    by_cases h1 : l.length ≤ 1
    · cases l with
      | nil => exact absurd rfl hl
      | cons a t =>
        simp only [buildFuel, rootFuel, if_pos h1]
        rfl
    · have hP : pairUp H l ≠ [] := pairUp_ne_nil H l hl
      obtain ⟨next, rest, hnr⟩ : ∃ n r, buildFuel H f (pairUp H l) = n :: r := by
        cases hb : buildFuel H f (pairUp H l) with
        | nil => exact absurd hb (buildFuel_ne_nil H f _)
        | cons n r => exact ⟨n, r, rfl⟩
      rw [buildFuel_cons H f l h1, rootFuel_step H f l h1]
      have IH := treeRoot_buildFuel H f (pairUp H l) hP
      simp only [treeRoot, hnr, List.getLast?_cons_cons] at IH ⊢
      exact IH

theorem buildFuel_headD (H : List Nat → List Nat) (f : Nat) (layer : List Digest) :
    (buildFuel H f layer).headD [] = layer := by
  cases f with
  | zero => rfl
  | succ f =>
    simp only [buildFuel]
    split <;> rfl

theorem verifyRoot_build (H : List Nat → List Nat) :
    ∀ (f : Nat) (L : List Digest) (idx : Nat), L.length ≤ f → idx < L.length →
      verifyRootFuel H f (L.getD idx []) idx L.length
          (pathFromLayers (buildFuel H f L) idx) = some (rootFuel H f L)
  | 0, L, idx, hf, hi => by omega
  | f + 1, L, idx, hf, hi => by
    by_cases h1 : L.length ≤ 1
    · have hlen1 : L.length = 1 := by omega
      obtain ⟨x, hx⟩ := List.length_eq_one.mp hlen1
      subst hx
      have hidx0 : idx = 0 := by omega
      subst hidx0
      rfl
    · have hP2 : 2 ≤ L.length := by omega
      have hPlen := pairUp_length H L
      have hPf : (pairUp H L).length ≤ f := by omega
      have hPidx : idx / 2 < (pairUp H L).length := by omega
      obtain ⟨next, rest, hnr⟩ : ∃ n r, buildFuel H f (pairUp H L) = n :: r := by
        cases hb : buildFuel H f (pairUp H L) with
        | nil => exact absurd hb (buildFuel_ne_nil H f _)
        | cons n r => exact ⟨n, r, rfl⟩
      have IH := verifyRoot_build H f (pairUp H L) (idx / 2) hPf hPidx
      rw [hnr] at IH
      rw [buildFuel_cons H f L h1, hnr, rootFuel_step H f L h1]
      simp only [pathFromLayers]
      by_cases hcarry : L.length % 2 = 1 ∧ idx = L.length - 1
      · have hpar : idx % 2 = 0 := by omega
        have hnolt : ¬ (idx + 1 < L.length) := by omega
        rw [if_pos hpar, if_neg hnolt, List.nil_append]
        rw [verifyRootFuel_carry H f _ idx L.length _ h1 hcarry]
        have hgd : (pairUp H L).getD (idx / 2) [] = L.getD idx [] := by
          have h2i : 2 * (idx / 2) = idx := by omega
          have hc := pairUp_getD_carry H L (idx / 2) (by omega)
          rwa [h2i] at hc
        rw [show (L.length + 1) / 2 = (pairUp H L).length from hPlen.symm, ← hgd]
        exact IH
      · by_cases hpar : idx % 2 = 0
        · have hlt : idx + 1 < L.length := by omega
          rw [if_pos hpar, if_pos hlt, List.singleton_append]
          rw [verifyRootFuel_cons H f _ idx L.length _ _ h1 hcarry]
          rw [if_pos hpar]
          have hgd : (pairUp H L).getD (idx / 2) [] =
              H (L.getD idx [] ++ L.getD (idx + 1) []) := by
            have h2i : 2 * (idx / 2) = idx := by omega
            have hc := pairUp_getD_pair H L (idx / 2) (by omega)
            rwa [h2i] at hc
          rw [show (L.length + 1) / 2 = (pairUp H L).length from hPlen.symm, ← hgd]
          exact IH
        · rw [if_neg hpar, List.singleton_append]
          rw [verifyRootFuel_cons H f _ idx L.length _ _ h1 hcarry]
          rw [if_neg hpar]
          have hgd : (pairUp H L).getD (idx / 2) [] =
              H (L.getD (idx - 1) [] ++ L.getD idx []) := by
            have h2i : 2 * (idx / 2) = idx - 1 := by omega
            have h2i1 : 2 * (idx / 2) + 1 = idx := by omega
            have hc := pairUp_getD_pair H L (idx / 2) (by omega)
            rwa [h2i1, h2i] at hc
          rw [show (L.length + 1) / 2 = (pairUp H L).length from hPlen.symm, ← hgd]
          exact IH

/-- C1: for every leaf count `n ≥ 1` and every index `i < n`, building the
tree from the leaves, generating the inclusion proof for `i`, and verifying
the claim `(root, i, leaves[i], n, path)` succeeds and returns `true`. -/
theorem c1_completeness (H : List Nat → List Nat) (leaves : List Digest)
    (idx : Nat) (r : Digest) (hne : leaves ≠ []) (hidx : idx < leaves.length)
    (hroot : treeRoot (build H leaves) = some r) :
    generate (build H leaves) idx =
      Except.ok (pathFromLayers (build H leaves) idx) ∧
    verify H r (leaves.getD idx []) idx leaves.length
      (pathFromLayers (build H leaves) idx) = Except.ok true := by
  have hb := treeRoot_buildFuel H leaves.length leaves hne
  simp only [build] at hroot ⊢
  rw [hb] at hroot
  have hr : r = rootFuel H leaves.length leaves := (Option.some.inj hroot).symm
  subst hr
  constructor
  · simp only [generate, buildFuel_headD]
    rw [if_pos hidx]
  · have main := verifyRoot_build H leaves.length leaves idx le_rfl hidx
    have hne0 : ¬ (leaves.length = 0 ∨ leaves.length ≤ idx) := by omega
    simp only [verify, if_neg hne0, main, decide_eq_true_eq]
    simp

/-- Witness for C1 at the three-leaf tree, index 2. -/
theorem c1_completeness_witness :
    verify Hc (Hc (Hc ([1] ++ [2]) ++ [3])) [3] 2 3
      (pathFromLayers (build Hc [[1], [2], [3]]) 2) = Except.ok true :=
  (c1_completeness Hc [[1], [2], [3]] 2 (Hc (Hc ([1] ++ [2]) ++ [3]))
    (by decide) (by decide) rfl).2

/-- C2: when the claimed index is not in `[0, totalLeaves)` — in particular
when it equals `totalLeaves`, or when `totalLeaves = 0` — verification fails
with `IndexOutOfRangeError`, aborting the check instead of returning a
boolean, and the driver commits nothing. -/
theorem c2_index_out_of_range (H : List Nat → List Nat) (root leaf : Digest)
    (index totalLeaves : Nat) (path : List Digest) (bs : List Nat)
    (h : totalLeaves = 0 ∨ totalLeaves ≤ index) :
    verify H root leaf index totalLeaves path =
      Except.error MerkleError.IndexOutOfRange ∧
    (bs.length % 32 = 0 →
      driver H root leaf bs index totalLeaves =
        Except.error MerkleError.IndexOutOfRange) := by
  refine ⟨by simp only [verify, if_pos h], fun hb => ?_⟩
  simp only [driver, decodePath, if_pos hb, verify, if_pos h]

/-- Witness for C2 at `index = totalLeaves = 3`. -/
theorem c2_index_out_of_range_witness :
    verify Hc [0] [1] 3 3 [] = Except.error MerkleError.IndexOutOfRange ∧
    driver Hc [0] [1] [] 3 3 = Except.error MerkleError.IndexOutOfRange := by
  have h := c2_index_out_of_range Hc [0] [1] 3 3 [] [] (by decide)
  exact ⟨h.1, h.2 (by decide)⟩

/-- C3: for every proof byte string whose length is not a multiple of 32,
decoding fails with `MalformedProofError` and the driver aborts the whole
computation, committing no output. -/
theorem c3_malformed_decode (H : List Nat → List Nat) (root leaf bs : List Nat)
    (index totalLeaves : Nat) (h : bs.length % 32 ≠ 0) :
    decodePath bs = Except.error MerkleError.MalformedProof ∧
    driver H root leaf bs index totalLeaves =
      Except.error MerkleError.MalformedProof := by
  exact ⟨by simp only [decodePath, if_neg h],
    by simp only [driver, decodePath, if_neg h]⟩

/-- Witness for C3 at a one-byte proof string. -/
theorem c3_malformed_decode_witness :
    decodePath [7] = Except.error MerkleError.MalformedProof ∧
    driver Hc [0] [1] [7] 0 1 = Except.error MerkleError.MalformedProof :=
  c3_malformed_decode Hc [0] [1] [7] 0 1 (by decide)

theorem driver_ok (H : List Nat → List Nat) (root leaf bs : List Nat)
    (index totalLeaves : Nat) (out : List Nat)
    (h : driver H root leaf bs index totalLeaves = Except.ok out) :
    ∃ v : Bool, verify H root leaf index totalLeaves (chunks32 bs) = Except.ok v ∧
      out = root ++ leaf ++ [cond v 1 0] := by
  by_cases hb : bs.length % 32 = 0
  · have h' :
        (match verify H root leaf index totalLeaves (chunks32 bs) with
          | Except.error e => Except.error e
          | Except.ok v => Except.ok (root ++ leaf ++ [cond v 1 0])) =
          Except.ok out := by
      simpa only [driver, decodePath, if_pos hb] using h
    cases hv : verify H root leaf index totalLeaves (chunks32 bs) with
    | error e => rw [hv] at h'; exact absurd h' (by simp)
    | ok v =>
      rw [hv] at h'
      exact ⟨v, rfl, (Except.ok.inj h').symm⟩
  · simp only [driver, decodePath, if_neg hb] at h
    exact absurd h (by simp)

/-- C5: whenever the driver runs to completion, the committed output is
exactly 65 bytes: the 32-byte root, the 32-byte leaf, then one validity byte
that is 1 when verification returned true and 0 when it returned false. -/
theorem c5_output_format (H : List Nat → List Nat) (root leaf bs : List Nat)
    (index totalLeaves : Nat) (out : List Nat)
    (hr : root.length = 32) (hl : leaf.length = 32)
    (h : driver H root leaf bs index totalLeaves = Except.ok out) :
    out.length = 65 ∧ ∃ v : Bool,
      verify H root leaf index totalLeaves (chunks32 bs) = Except.ok v ∧
      out = root ++ leaf ++ [cond v 1 0] := by
  obtain ⟨v, hv, ho⟩ := driver_ok H root leaf bs index totalLeaves out h
  subst ho
  exact ⟨by simp [hr, hl], v, hv, rfl⟩

/-- Witness for C5: an empty proof against a single-leaf tree, which
verifies to `false` and commits `root ++ leaf ++ [0]`. -/
theorem c5_output_format_witness :
    (List.replicate 32 0 ++ List.replicate 32 1 ++ [0] : List Nat).length = 65 ∧
    ∃ v : Bool,
      verify Hc (List.replicate 32 0) (List.replicate 32 1) 0 1 (chunks32 []) =
        Except.ok v ∧
      (List.replicate 32 0 ++ List.replicate 32 1 ++ [0] : List Nat) =
        List.replicate 32 0 ++ List.replicate 32 1 ++ [cond v 1 0] :=
  c5_output_format Hc (List.replicate 32 0) (List.replicate 32 1) [] 0 1
    (List.replicate 32 0 ++ List.replicate 32 1 ++ [0]) (by simp) (by simp) rfl

/-- C10: whenever the driver runs to completion, the first 32 bytes of the
output equal the input root and the next 32 bytes equal the input leaf,
byte for byte; only the final byte depends on the verification outcome. -/
theorem c10_frame (H : List Nat → List Nat) (root leaf bs : List Nat)
    (index totalLeaves : Nat) (out : List Nat)
    (hr : root.length = 32) (hl : leaf.length = 32)
    (h : driver H root leaf bs index totalLeaves = Except.ok out) :
    out.take 32 = root ∧ (out.drop 32).take 32 = leaf ∧
      ∃ b : Nat, out = root ++ leaf ++ [b] := by
  obtain ⟨v, hv, ho⟩ := driver_ok H root leaf bs index totalLeaves out h
  subst ho
  refine ⟨?_, ?_, cond v 1 0, rfl⟩
  · rw [List.append_assoc, ← hr]
    exact List.take_left root (leaf ++ [cond v 1 0])
  · rw [List.append_assoc]
    have hd : (root ++ (leaf ++ [cond v 1 0])).drop 32 = leaf ++ [cond v 1 0] := by
      rw [← hr]
      exact List.drop_left root (leaf ++ [cond v 1 0])
    rw [hd, ← hl]
    exact List.take_left leaf [cond v 1 0]

/-- Witness for C10 at the same single-leaf run as the C5 witness. -/
theorem c10_frame_witness :
    (List.replicate 32 0 ++ List.replicate 32 1 ++ [0] : List Nat).take 32 =
      List.replicate 32 0 ∧
    ((List.replicate 32 0 ++ List.replicate 32 1 ++ [0] : List Nat).drop 32).take 32 =
      List.replicate 32 1 ∧
    ∃ b : Nat, (List.replicate 32 0 ++ List.replicate 32 1 ++ [0] : List Nat) =
      List.replicate 32 0 ++ List.replicate 32 1 ++ [b] :=
  c10_frame Hc (List.replicate 32 0) (List.replicate 32 1) [] 0 1
    (List.replicate 32 0 ++ List.replicate 32 1 ++ [0]) (by simp) (by simp) rfl

theorem chunksFuel_congr : ∀ (f1 f2 : Nat) (bs : List Nat),
    bs.length ≤ f1 → bs.length ≤ f2 → chunksFuel f1 bs = chunksFuel f2 bs
  | _, _, [], _, _ => by simp [chunksFuel]
  | 0, _, x :: t, h1, _ => by simp at h1
  | _ + 1, 0, x :: t, _, h2 => by simp at h2
  | f1 + 1, f2 + 1, x :: t, h1, h2 => by
    simp only [chunksFuel]
    congr 1
    apply chunksFuel_congr
    · simp only [List.length_drop, List.length_cons]
      simp only [List.length_cons] at h1
      omega
    · simp only [List.length_drop, List.length_cons]
      simp only [List.length_cons] at h2
      omega

theorem chunks32_cons (d e : List Nat) (hd : d.length = 32) :
    chunks32 (d ++ e) = d :: chunks32 e := by
  obtain ⟨x, t, hx⟩ : ∃ x t, d = x :: t := by
    cases d with
    | nil => simp at hd
    | cons x t => exact ⟨x, t, rfl⟩
  subst hx
  have hlen : ((x :: t) ++ e).length = (31 + e.length) + 1 := by
    simp only [List.length_append, hd]
    omega
  unfold chunks32
  rw [hlen]
  rw [List.cons_append]
  simp only [chunksFuel]
  rw [← List.cons_append]
  congr 1
  · rw [← hd]
    exact List.take_left (x :: t) e
  · have hdrop : ((x :: t) ++ e).drop 32 = e := by
      rw [← hd]
      exact List.drop_left (x :: t) e
    rw [hdrop]
    exact chunksFuel_congr (31 + e.length) e.length e (by omega) le_rfl

theorem encodePath_chunks : ∀ (p : List Digest), (∀ d ∈ p, d.length = 32) →
    (encodePath p).length % 32 = 0 ∧ chunks32 (encodePath p) = p
  | [], _ => ⟨by simp [encodePath], by simp [encodePath, chunks32, chunksFuel]⟩
  | d :: rest, h => by
    have hd : d.length = 32 := h d (by simp)
    have hrest := encodePath_chunks rest (fun x hx => h x (by simp [hx]))
    constructor
    · simp only [encodePath, List.length_append, hd]
      omega
    · simp only [encodePath]
      rw [chunks32_cons d (encodePath rest) hd, hrest.2]

/-- C6: round-trip of the proof codec — decoding the canonical encoding of
every valid sibling path (all digests 32 bytes) yields the path again. -/
theorem c6_roundtrip (p : List Digest) (h : ∀ d ∈ p, d.length = 32) :
    decodePath (encodePath p) = Except.ok p := by
  obtain ⟨h1, h2⟩ := encodePath_chunks p h
  simp only [decodePath, if_pos h1, h2]

/-- Witness for C6 at a one-digest path. -/
theorem c6_roundtrip_witness :
    decodePath (encodePath [List.replicate 32 5]) =
      Except.ok [List.replicate 32 5] :=
  c6_roundtrip [List.replicate 32 5] (by decide)

theorem verifyRootFuel_none (H : List Nat → List Nat) :
    ∀ (f : Nat) (cur : Digest) (pos ls : Nat) (path : List Digest),
      path.length ≠ expectedPathLen f pos ls →
      verifyRootFuel H f cur pos ls path = none
  | 0, cur, pos, ls, path, h => by
    simp only [expectedPathLen] at h
    simp only [verifyRootFuel]
    rw [if_neg fun he => by subst he; simp at h]
  | f + 1, cur, pos, ls, path, h => by
    simp only [expectedPathLen] at h
    simp only [verifyRootFuel]
    by_cases h1 : ls ≤ 1
    · rw [if_pos h1] at h
      rw [if_pos h1, if_neg fun he => by subst he; simp at h]
    · rw [if_neg h1] at h
      rw [if_neg h1]
      by_cases hc : ls % 2 = 1 ∧ pos = ls - 1
      · rw [if_pos hc] at h
        rw [if_pos hc]
        exact verifyRootFuel_none H f cur (pos / 2) ((ls + 1) / 2) path
          (by simpa using h)
      · rw [if_neg hc] at h
        rw [if_neg hc]
        cases path with
        | nil => rfl
        | cons s rest =>
          have hrest : rest.length ≠ expectedPathLen f (pos / 2) ((ls + 1) / 2) := by
            simp only [List.length_cons] at h
            omega
          exact verifyRootFuel_none H f _ (pos / 2) ((ls + 1) / 2) rest hrest

theorem verifyRootFuel_some (H : List Nat → List Nat) :
    ∀ (f : Nat) (cur : Digest) (pos ls : Nat) (path : List Digest),
      path.length = expectedPathLen f pos ls →
      ∃ r, verifyRootFuel H f cur pos ls path = some r
  | 0, cur, pos, ls, path, h => by
    simp only [expectedPathLen, List.length_eq_zero] at h
    subst h
    exact ⟨cur, rfl⟩
  | f + 1, cur, pos, ls, path, h => by
    simp only [expectedPathLen] at h
    simp only [verifyRootFuel]
    by_cases h1 : ls ≤ 1
    · rw [if_pos h1] at h
      rw [List.length_eq_zero] at h
      subst h
      rw [if_pos h1]
      exact ⟨cur, by rw [if_pos rfl]⟩
    · rw [if_neg h1] at h
      rw [if_neg h1]
      by_cases hc : ls % 2 = 1 ∧ pos = ls - 1
      · rw [if_pos hc] at h
        rw [if_pos hc]
        exact verifyRootFuel_some H f cur (pos / 2) ((ls + 1) / 2) path
          (by simpa using h)
      · rw [if_neg hc] at h
        rw [if_neg hc]
        cases path with
        | nil =>
          simp only [List.length_nil] at h
          omega
        | cons s rest =>
          have hrest : rest.length = expectedPathLen f (pos / 2) ((ls + 1) / 2) := by
            simp only [List.length_cons] at h
            omega
          exact verifyRootFuel_some H f _ (pos / 2) ((ls + 1) / 2) rest hrest

/-- C4: a structurally well-formed (multiple-of-32) proof whose decoded path
length is incompatible with the tree depth implied by `totalLeaves` makes
verification report `MalformedProofError`, an aborting error distinct from
the boolean outcome `false`, and the driver aborts as well. -/
theorem c4_path_length_mismatch (H : List Nat → List Nat)
    (root leaf bs : List Nat) (index totalLeaves : Nat)
    (hn : 0 < totalLeaves) (hi : index < totalLeaves)
    (hb : bs.length % 32 = 0)
    (hlen : (chunks32 bs).length ≠ expectedPathLen totalLeaves index totalLeaves) :
    verify H root leaf index totalLeaves (chunks32 bs) =
      Except.error MerkleError.MalformedProof ∧
    driver H root leaf bs index totalLeaves =
      Except.error MerkleError.MalformedProof := by
  have hv : verifyRootFuel H totalLeaves leaf index totalLeaves (chunks32 bs) = none :=
    verifyRootFuel_none H totalLeaves leaf index totalLeaves (chunks32 bs) hlen
  have h0 : ¬ (totalLeaves = 0 ∨ totalLeaves ≤ index) := by omega
  refine ⟨by simp only [verify, if_neg h0, hv], ?_⟩
  simp only [driver, decodePath, if_pos hb, verify, if_neg h0, hv]

/-- Witness for C4: an empty proof against a two-leaf tree, which needs one
sibling. -/
theorem c4_path_length_mismatch_witness :
    verify Hc [0] [1] 0 2 (chunks32 []) = Except.error MerkleError.MalformedProof ∧
    driver Hc [0] [1] [] 0 2 = Except.error MerkleError.MalformedProof :=
  c4_path_length_mismatch Hc [0] [1] [] 0 2 (by decide) (by decide) (by decide)
    (by decide)

/-- C7: the odd-carry policy on three leaves — the final unpaired entry is
carried forward unchanged, the root is `H(H(L0,L1), L2)`, the generated path
for index 2 has no sibling at the odd-carry transition (only the one for the
next transition), and verification still reaches the root. -/
theorem c7_odd_carry (H : List Nat → List Nat) (L0 L1 L2 : Digest) :
    treeRoot (build H [L0, L1, L2]) = some (H (H (L0 ++ L1) ++ L2)) ∧
    pathFromLayers (build H [L0, L1, L2]) 2 = [H (L0 ++ L1)] ∧
    verify H (H (H (L0 ++ L1) ++ L2)) L2 2 3
      (pathFromLayers (build H [L0, L1, L2]) 2) = Except.ok true := by
  refine ⟨rfl, rfl, ?_⟩
  have hv : verifyRootFuel H 3 L2 2 3 [H (L0 ++ L1)] =
      some (H (H (L0 ++ L1) ++ L2)) := rfl
  have hp : pathFromLayers (build H [L0, L1, L2]) 2 = [H (L0 ++ L1)] := rfl
  rw [hp]
  simp only [verify, hv]
  simp

/-- C8 counterexample: for the three-leaf tree and index 2 the generated
path has a single entry, while `len(layers) - 1 = 2`; the claimed equality
fails at the odd-carry transition. -/
theorem c8_counterexample :
    ¬ ((pathFromLayers (build Hc [[0], [1], [2]]) 2).length =
        (build Hc [[0], [1], [2]]).length - 1) := by decide

theorem pathLen_build (H : List Nat → List Nat) :
    ∀ (f : Nat) (L : List Digest) (idx : Nat), L.length ≤ f → idx < L.length →
      (pathFromLayers (buildFuel H f L) idx).length =
        expectedPathLen f idx L.length ∧
      expectedPathLen f idx L.length ≤ (buildFuel H f L).length - 1
  | 0, L, idx, hf, hi => by omega
  | f + 1, L, idx, hf, hi => by
    by_cases h1 : L.length ≤ 1
    · have hlen1 : L.length = 1 := by omega
      obtain ⟨x, hx⟩ := List.length_eq_one.mp hlen1
      subst hx
      have hidx0 : idx = 0 := by omega
      subst hidx0
      exact ⟨rfl, Nat.zero_le _⟩
    · have hP2 : 2 ≤ L.length := by omega
      have hPlen := pairUp_length H L
      have hPf : (pairUp H L).length ≤ f := by omega
      have hPidx : idx / 2 < (pairUp H L).length := by omega
      obtain ⟨next, rest, hnr⟩ : ∃ n r, buildFuel H f (pairUp H L) = n :: r := by
        cases hb : buildFuel H f (pairUp H L) with
        | nil => exact absurd hb (buildFuel_ne_nil H f _)
        | cons n r => exact ⟨n, r, rfl⟩
      have IH := pathLen_build H f (pairUp H L) (idx / 2) hPf hPidx
      rw [hnr] at IH
      rw [buildFuel_cons H f L h1, hnr]
      have hexp : expectedPathLen (f + 1) idx L.length =
          (if L.length % 2 = 1 ∧ idx = L.length - 1 then 0 else 1) +
            expectedPathLen f (idx / 2) ((L.length + 1) / 2) := by
        simp only [expectedPathLen, if_neg h1]
      rw [hexp]
      rw [show (L.length + 1) / 2 = (pairUp H L).length from hPlen.symm]
      simp only [pathFromLayers, List.length_append, List.length_cons]
      constructor
      · by_cases hcarry : L.length % 2 = 1 ∧ idx = L.length - 1
        · have hpar : idx % 2 = 0 := by omega
          have hnolt : ¬ (idx + 1 < L.length) := by omega
          rw [if_pos hcarry, if_pos hpar, if_neg hnolt]
          simp only [List.length_nil, IH.1]
        · rw [if_neg hcarry]
          by_cases hpar : idx % 2 = 0
          · have hlt : idx + 1 < L.length := by omega
            rw [if_pos hpar, if_pos hlt]
            simp only [List.length_singleton, IH.1]
          · rw [if_neg hpar]
            simp only [List.length_singleton, IH.1]
      · have hnn : 1 ≤ (next :: rest).length := by simp
        have h2 := IH.2
        by_cases hcarry : L.length % 2 = 1 ∧ idx = L.length - 1
        · rw [if_pos hcarry]
          simp only [List.length_cons] at h2 ⊢
          omega
        · rw [if_neg hcarry]
          simp only [List.length_cons] at h2 ⊢
          omega

/-- C8 amended: the generated path has one entry per layer transition at
which the node has a pairing partner and none at odd-carry transitions; its
length is `expectedPathLen` and is at most `len(layers) - 1` (with equality
exactly when no odd-carry occurs on the path). -/
theorem c8_path_length (H : List Nat → List Nat) (leaves : List Digest)
    (idx : Nat) (hidx : idx < leaves.length) :
    (pathFromLayers (build H leaves) idx).length =
      expectedPathLen leaves.length idx leaves.length ∧
    (pathFromLayers (build H leaves) idx).length ≤ (build H leaves).length - 1 := by
  have h := pathLen_build H leaves.length leaves idx le_rfl hidx
  simp only [build]
  exact ⟨h.1, by rw [h.1]; exact h.2⟩

/-- Witness for the amended C8 at the three-leaf tree, index 2. -/
theorem c8_path_length_witness :
    (pathFromLayers (build Hc [[0], [1], [2]]) 2).length =
      expectedPathLen 3 2 3 ∧
    (pathFromLayers (build Hc [[0], [1], [2]]) 2).length ≤
      (build Hc [[0], [1], [2]]).length - 1 :=
  c8_path_length Hc [[0], [1], [2]] 2 (by decide)

/-- C9: the whole computation is a pure function of its inputs — building
the same leaf sequence twice yields the same root, and two driver runs on the
same five inputs produce identical committed outputs. -/
theorem c9_determinism (H : List Nat → List Nat) (leaves : List Digest)
    (root leaf bs : List Nat) (index totalLeaves : Nat)
    (r1 r2 : Option Digest) (o1 o2 : Except MerkleError (List Nat))
    (hb1 : treeRoot (build H leaves) = r1) (hb2 : treeRoot (build H leaves) = r2)
    (hd1 : driver H root leaf bs index totalLeaves = o1)
    (hd2 : driver H root leaf bs index totalLeaves = o2) :
    r1 = r2 ∧ o1 = o2 := by
  constructor
  · rw [← hb1, ← hb2]
  · rw [← hd1, ← hd2]

/-- Witness for C9 at a concrete run. -/
theorem c9_determinism_witness :
    treeRoot (build Hc [[4]]) = treeRoot (build Hc [[4]]) ∧
    driver Hc [0] [1] [] 0 1 = driver Hc [0] [1] [] 0 1 :=
  c9_determinism Hc [[4]] [0] [1] [] 0 1 _ _ _ _ rfl rfl rfl rfl
